import Mathlib

/-!
# Verification of the GovSGTrustedSites scraper (`scraper.py`)

Shallow embedding of the scraper's core: the exponential-backoff policy
(`backoff_delay_async`), the retrying fetcher (`get`), the
concurrency-bounded dispatcher (`get_async` / `gather_with_concurrency`),
the URL normalizer (`clean_url`) and the page extractor (`extract_urls`).

Modelling conventions:
* awaiting a network request is modelled by a `FetchOracle` giving, per
  endpoint and per attempt index, either the response body bytes or the
  textual description (Python `repr`) of the raised exception;
* response bodies and error descriptions are `String`s (byte sequences
  are opaque to the scraper except for equality with the `b"{}"`
  sentinel);
* time delays are exact rationals (`ℚ`); every delay the program computes
  (`backoff_factor * 2 ** (n - 1)` with `backoff_factor = 1`) is a small
  power of two, which IEEE doubles represent exactly, so `ℚ` is a faithful
  model of the Python float arithmetic involved;
* a log statement is modelled by a value recorded in the function's
  result (the fetcher's `errors` list; the extractor's `LogEvent` list);
* Python `set` iteration order and `asyncio.as_completed` completion
  order are nondeterministic; the dispatcher is modelled over `List.dedup`
  of its input, and every property proved about it is invariant under
  permutation of that order (key sets, entry counts, per-key values);
* Python `str.strip()` removes exactly the `str.isspace()` characters,
  embedded as `isPyWhitespace`; Python `str.lower()` is modelled by the
  ASCII `Char.toLower`, so statements whose hypotheses demand
  `Char.toLower`-fixed characters constrain only ASCII case (no character
  outside A–Z lowercases to a character that the scraper treats
  specially, so this does not affect the truth of those statements).
-/

namespace Scraper

/-- The sentinel body returned by `get` when every retry failed:
Python `b"{}"` (`return (url, b"{}")`). -/
def failureSentinel : String := "{}"

/-- `max_retries: int = 5` in `get`. -/
def max_retries : Nat := 5

/-- One attempt's result as observed by `get`'s `try`/`except`:
`Except.ok body` for a completed request, `Except.error e` for a raised
exception whose `repr` is `e`. -/
abbrev AttemptOutcome := Except String String

/-- The network environment: for each endpoint and each attempt index,
the outcome that attempt would observe. -/
abbrev FetchOracle := String → Nat → AttemptOutcome

/-- `backoff_delay_async(backoff_factor, number_of_retries_made)`:
sleeps `backoff_factor * (2 ** (number_of_retries_made - 1))` seconds.
The subtraction is Python `int` subtraction, so `number_of_retries_made = 0`
gives the exponent `-1`, i.e. a delay of `backoff_factor * 0.5`. -/
def backoff_delay_async (backoff_factor : ℚ) (number_of_retries_made : Nat) : ℚ :=
  backoff_factor * (2 : ℚ) ^ ((number_of_retries_made : ℤ) - 1)

/-- The terminal state of one `get(url, session)` call: the returned pair
(`url`, `body`), the accumulated `errors` diagnostic list, and the list of
backoff delays that were awaited (in order). -/
structure GetResult where
  url : String
  body : String
  errors : List String
  delays : List ℚ
  deriving DecidableEq, Repr

/-- The `for number_of_retries_made in range(max_retries)` loop of `get`,
iterating over the remaining attempt indices, with `errors` and `delays`
accumulated so far.  On success the pair `(url, body)` is returned at
once; on an exception the error's description is appended and, unless this
was the final attempt (`number_of_retries_made != max_retries - 1`),
`backoff_delay_async(1, number_of_retries_made)` is awaited.  When the
loop exhausts all attempts, `get` logs the errors and returns
`(url, b"{}")`. -/
def getLoop (attempt : FetchOracle) (url : String) (maxRetries : Nat) :
    List Nat → List String → List ℚ → GetResult
  | [], errors, delays => ⟨url, failureSentinel, errors, delays⟩
  | n :: rest, errors, delays =>
    match attempt url n with
    | .ok body => ⟨url, body, errors, delays⟩
    | .error e =>
      if n ≠ maxRetries - 1 then
        getLoop attempt url maxRetries rest (errors ++ [e])
          (delays ++ [backoff_delay_async 1 n])
      else
        getLoop attempt url maxRetries rest (errors ++ [e]) delays

/-- `get(url, session)`: up to `max_retries` attempts with exponential
backoff between failed attempts; never raises — every terminal state is a
returned `GetResult`. -/
def get (attempt : FetchOracle) (url : String) : GetResult :=
  getLoop attempt url max_retries (List.range max_retries) [] []

/-- Does any of the `max_retries` attempts for `url` succeed?  (`get`
stops at the first success, so this decides whether `get` returns a real
body or the failure sentinel.) -/
def succeedsB (attempt : FetchOracle) (url : String) : Bool :=
  (List.range max_retries).any fun i => (attempt url i).isOk

/-- `get_async(endpoints, ...)`: deduplicate the endpoints
(`set(endpoints)`), run `get` for each unique endpoint, and collect the
returned `(url, body)` pairs into a dict.  Python `set` iteration order
and `as_completed` completion order are arbitrary; the model fixes the
`List.dedup` order, and all properties proved below are order-invariant. -/
def get_async (attempt : FetchOracle) (endpoints : List String) :
    List (String × String) :=
  endpoints.dedup.map fun url => ((get attempt url).url, (get attempt url).body)

/-! ## URL normalization (`clean_url`)

`clean_url` is modelled over `List Char` (Python strings are sequences of
code points).  The steps `re.sub` over the zero-width range U+200B..U+200D
plus U+FEFF, `.strip()`, `.rstrip("/")` and `.lower()` are in the source; the
`tldextract.extract` call is an external library, modelled below from the
spec's description of the normalization collaborator. -/

/-- A zero-width character matched by the source's removal regex:
U+200B, U+200C, U+200D or U+FEFF. -/
def isZWSpace (c : Char) : Bool :=
  c == '\u200B' || c == '\u200C' || c == '\u200D' || c == '\uFEFF'

/-- A character Python's `str.isspace()` accepts — the set `str.strip()`
removes: `\t \n \x0B \x0C \r` (U+0009..U+000D), the separators
U+001C..U+001F, the space, U+0085, U+00A0, U+1680, U+2000..U+200A,
U+2028, U+2029, U+202F, U+205F and U+3000. -/
def isPyWhitespace (c : Char) : Bool :=
  (9 ≤ c.toNat && c.toNat ≤ 13) || (28 ≤ c.toNat && c.toNat ≤ 31)
    || c.toNat == 32 || c.toNat == 0x85 || c.toNat == 0xA0 || c.toNat == 0x1680
    || (0x2000 ≤ c.toNat && c.toNat ≤ 0x200A)
    || c.toNat == 0x2028 || c.toNat == 0x2029 || c.toNat == 0x202F
    || c.toNat == 0x205F || c.toNat == 0x3000

/-- Python `str.strip()`: drop whitespace from both ends. -/
def trimChars (s : List Char) : List Char :=
  ((s.dropWhile isPyWhitespace).reverse.dropWhile isPyWhitespace).reverse

/-- Python `str.rstrip("/")`. -/
def rstripSlash (s : List Char) : List Char :=
  (s.reverse.dropWhile fun c => c == '/').reverse

/-- Python `str.rstrip(".")` (root-label stripping inside the host parser). -/
def rstripDots (s : List Char) : List Char :=
  (s.reverse.dropWhile fun c => c == '.').reverse

/-- A character allowed in a URL scheme (`[a-zA-Z0-9+.-]`). -/
def isSchemeChar (c : Char) : Bool :=
  c.isAlphanum || c == '+' || c == '-' || c == '.'

/-- Strip a leading `scheme://` (or a protocol-relative leading `//`),
when present; otherwise return the string unchanged. -/
def dropScheme (s : List Char) : List Char :=
  match s with
  | '/' :: '/' :: rest => rest
  | _ =>
    match s.dropWhile isSchemeChar with
    | ':' :: '/' :: '/' :: rest => rest
    | _ => s

/-- Keep everything before the first path/query/fragment delimiter. -/
def takeHostPart (s : List Char) : List Char :=
  s.takeWhile fun c => !(c == '/' || c == '?' || c == '#')

/-- Keep everything after the last `@` (drop a userinfo part). -/
def afterLastAt (s : List Char) : List Char :=
  (s.reverse.takeWhile fun c => c != '@').reverse

/-- Keep everything before the first `:` (drop a port part). -/
def beforeColon (s : List Char) : List Char :=
  s.takeWhile fun c => c != ':'

/-- Modelled from the spec: the host-isolating front end of the external
`tldextract` library (its `lenient_netloc`), which is not part of this
repository.  Per the spec the normalization collaborator strips the scheme
before working on the host; the library also drops the path/query/fragment,
userinfo and port, trims whitespace and removes trailing (root) dots.
Fullwidth/ideographic dot variants and punycode are not modelled. -/
def lenient_netloc (url : List Char) : List Char :=
  rstripDots (trimChars (beforeColon (afterLastAt (takeHostPart (dropScheme url)))))

/-- Split a host into its dot-separated labels (Python `str.split(".")`:
never empty, empty labels preserved). -/
def splitOnDot : List Char → List (List Char)
  | [] => [[]]
  | c :: rest =>
    if c = '.' then [] :: splitOnDot rest
    else
      match splitOnDot rest with
      | [] => [[c]]
      | l :: ls => (c :: l) :: ls

/-- A character that can appear in an extracted host: none of the
delimiters the host parser cuts at, no zero-width space, no whitespace. -/
def hostSafeChar (c : Char) : Bool :=
  !(c == '/' || c == '?' || c == '#' || c == '@' || c == ':'
    || isZWSpace c || isPyWhitespace c)

/-- Python `".".join(...)`. -/
def joinDot : List (List Char) → List Char
  | [] => []
  | [l] => l
  | l :: ls => l ++ '.' :: joinDot ls

/-- The three parts of a parsed host, as returned by `tldextract.extract`.
The extraction preserves the case of its input (only the public-suffix
lookup is case-insensitive); `clean_url` lowercases afterwards. -/
structure ExtractResult where
  subdomain : List Char
  domain : List Char
  suffix : List Char
  deriving DecidableEq, Repr

/-- Modelled from the spec: the label-splitting core of the external
`tldextract.extract` (not part of this repository).  The public-suffix
list is abstracted to the rule "the final label of a multi-label host is
the public suffix": with at least two labels, the last label is the
suffix, the one before it the domain, and the rest (dot-joined) the
subdomain; a single-label host has no suffix, hence no usable domain.
IP-address literals are not modelled. -/
def tldextract_extract (url : List Char) : ExtractResult :=
  let netloc := lenient_netloc url
  let labels := splitOnDot netloc
  if labels.length ≥ 2 then
    { subdomain := joinDot (labels.dropLast.dropLast)
      domain := labels.dropLast.getLastD []
      suffix := labels.getLastD [] }
  else
    { subdomain := [], domain := netloc, suffix := [] }

/-- `ExtractResult.fqdn`: all nonempty parts dot-joined, provided both the
domain and the suffix are present; otherwise the empty string. -/
def ExtractResult.fqdn (e : ExtractResult) : List Char :=
  if e.domain ≠ [] ∧ e.suffix ≠ [] then
    joinDot ((if e.subdomain = [] then [] else [e.subdomain]) ++ [e.domain, e.suffix])
  else []

/-- `ExtractResult.top_domain_under_public_suffix`: `domain.suffix` when
both parts are present; otherwise the empty string. -/
def ExtractResult.top_domain_under_public_suffix (e : ExtractResult) : List Char :=
  if e.domain ≠ [] ∧ e.suffix ≠ [] then joinDot [e.domain, e.suffix] else []

/-- `clean_url` on code-point lists: remove zero-width spaces, strip
leading/trailing whitespace, strip trailing slashes, parse the host and
drop the scheme (keeping the registered domain when the subdomain is
exactly `"www"`, the full host otherwise), then lowercase. -/
def clean_url_chars (url : List Char) : List Char :=
  let removed_zero_width_spaces := url.filter fun c => !(isZWSpace c)
  let removed_leading_and_trailing_whitespaces := trimChars removed_zero_width_spaces
  let removed_trailing_slashes := rstripSlash removed_leading_and_trailing_whitespaces
  let ext := tldextract_extract removed_trailing_slashes
  let removed_scheme :=
    if ext.subdomain = ['w', 'w', 'w'] then ext.top_domain_under_public_suffix else ext.fqdn
  removed_scheme.map Char.toLower

/-- `clean_url(url)` of the source, as a `String → String` function. -/
def clean_url (url : String) : String := ⟨clean_url_chars url.data⟩

/-! ## Page extraction (`extract_urls`) -/

/-- An error-level log statement emitted by `extract_urls`. -/
inductive LogEvent where
  | inaccessibleError : LogEvent
  | caughtError (msg : String) : LogEvent
  deriving DecidableEq, Repr

/-- The fixed endpoint `"https://www.gov.sg/trusted-sites"`. -/
def trusted_sites_endpoint : String := "https://www.gov.sg/trusted-sites"

/-- The external HTML-parsing collaborator (`BeautifulSoup` +
`find_all("a", {"target": ("_self", "_blank")})` + `attrs.get("href", "")`):
from the page bytes, either the list of raw href strings or a raised
exception's description. -/
abbrev HrefExtractor := String → Except String (List String)

/-- `extract_urls()`: fetch the trusted-sites page via `get_async`; if the
body is the failure sentinel, log an inaccessibility error and return the
empty set; otherwise extract hrefs, normalize each with `clean_url`,
collect into a set and discard the empty string.  Any exception raised
inside the `try` block (a missing dict key, a parser fault) is caught,
logged, and turned into an empty-set return — the function never raises. -/
def extract_urls (attempt : FetchOracle) (findAnchorHrefs : HrefExtractor) :
    Finset String × List LogEvent :=
  match (get_async attempt [trusted_sites_endpoint]).lookup trusted_sites_endpoint with
  | none => (∅, [.caughtError "KeyError"])
  | some main_page =>
    if main_page ≠ failureSentinel then
      match findAnchorHrefs main_page with
      | .ok hrefs => ((hrefs.map clean_url).toFinset.erase "", [])
      | .error e => (∅, [.caughtError e])
    else (∅, [.inaccessibleError])

/-! ## Concrete environments used as test inputs -/

/-- A network where every attempt raises (`TimeoutError` each time). -/
def alwaysFailOracle : FetchOracle := fun _ _ => .error "TimeoutError()"

/-- A network where the first two attempts raise and every later attempt
succeeds with a small HTML page. -/
def failTwiceOracle : FetchOracle := fun _ n =>
  if n < 2 then .error "TimeoutError()" else .ok "<p></p>"

/-- A network whose first attempt succeeds with body `"{}"` — byte-for-byte
the same as the failure sentinel. -/
def emptyJsonOracle : FetchOracle := fun _ _ => .ok "{}"

/-- An HTML extractor that raises on any input. -/
def raisingHrefs : HrefExtractor := fun _ => .error "FeatureNotFound()"

/-- An HTML extractor returning two fixed hrefs, one of which normalizes
to the empty string. -/
def fixedHrefs : HrefExtractor := fun _ => .ok ["https://Example.com/", ""]

/-! ## Admission control (`gather_with_concurrency`)

The semaphore-gated scheduling of `sem_task` is modelled as a labelled
transition system over the phases of the scheduled tasks.  A task is
`pending` until the semaphore admits it, holds a semaphore slot during the
settling sleep (`asyncio.sleep(0.5)`) and while its request is in flight
(`await task`), and releases the slot when it finishes (`async with`
releases on every exit path).  Steps may interleave arbitrarily, which
covers every completion order `asyncio.as_completed` can observe. -/

/-- The phase of one `sem_task` coroutine. -/
inductive TaskPhase where
  | pending : TaskPhase
  | settling : TaskPhase
  | inflight : TaskPhase
  | finished : TaskPhase
  deriving DecidableEq, Repr

/-- A task holds a semaphore slot from admission until completion. -/
def TaskPhase.holdsSlot : TaskPhase → Bool
  | .settling => true
  | .inflight => true
  | _ => false

/-- Number of tasks whose request is in flight. -/
def inflightCount (ts : List TaskPhase) : Nat :=
  ts.countP fun p => p == TaskPhase.inflight

/-- Number of semaphore slots currently held. -/
def heldSlots (ts : List TaskPhase) : Nat :=
  ts.countP fun p => p.holdsSlot

/-- One scheduler step of `gather_with_concurrency` with semaphore
capacity `cap`: `acquire` admits a pending task only when a slot is free
(`asyncio.Semaphore(max_concurrent_requests)`), `issue` moves an admitted
task from its settling sleep to the in-flight request, and `complete`
finishes an in-flight task and releases its slot. -/
inductive SemStep (cap : Nat) : List TaskPhase → List TaskPhase → Prop where
  | acquire (ts : List TaskPhase) (i : Nat) (hi : ts[i]? = some .pending)
      (hcap : heldSlots ts < cap) : SemStep cap ts (ts.set i .settling)
  | issue (ts : List TaskPhase) (i : Nat) (hi : ts[i]? = some .settling) :
      SemStep cap ts (ts.set i .inflight)
  | complete (ts : List TaskPhase) (i : Nat) (hi : ts[i]? = some .inflight) :
      SemStep cap ts (ts.set i .finished)

/-- The scheduler states reachable during one `gather_with_concurrency`
run over `n` scheduled tasks: every task starts `pending`. -/
def SemReachable (cap n : Nat) (ts : List TaskPhase) : Prop :=
  Relation.ReflTransGen (SemStep cap) (List.replicate n .pending) ts

/-! ## Characterization of the retry loop -/

/-- If every attempt whose index remains in the loop fails (with
description `E i` for attempt `i`), the loop returns the failure sentinel,
appends one error per attempt, and awaits one backoff delay per non-final
failed attempt. -/
theorem getLoop_all_fail (a : FetchOracle) (u : String) (M : Nat) (E : Nat → String)
    (L : List Nat) (errs : List String) (dels : List ℚ)
    (hE : ∀ n ∈ L, a u n = Except.error (E n)) :
    getLoop a u M L errs dels =
      ⟨u, failureSentinel, errs ++ L.map E,
        dels ++ (L.filter fun n => n ≠ M - 1).map fun n => backoff_delay_async 1 n⟩ := by
  induction L generalizing errs dels with
  | nil => simp [getLoop]
  | cons n rest ih =>
    rw [getLoop, hE n (by simp)]
    dsimp only
    by_cases hlast : n ≠ M - 1
    · rw [if_pos hlast, ih _ _ fun i hi => hE i (by simp [hi])]
      simp [List.filter_cons, hlast]
    · rw [if_neg hlast, ih _ _ fun i hi => hE i (by simp [hi])]
      simp only [ne_eq, not_not] at hlast
      simp [List.filter_cons, hlast]

/-- If every attempt with index in `L₁` fails and the next attempt `m`
succeeds with body `b`, the loop returns `b` at once, having recorded one
error and awaited one backoff delay per failed attempt. -/
theorem getLoop_succeeds (a : FetchOracle) (u : String) (M : Nat) (E : Nat → String)
    (L₁ L₂ : List Nat) (m : Nat) (b : String) (errs : List String) (dels : List ℚ)
    (hE : ∀ n ∈ L₁, a u n = Except.error (E n))
    (hb : a u m = Except.ok b) :
    getLoop a u M (L₁ ++ m :: L₂) errs dels =
      ⟨u, b, errs ++ L₁.map E,
        dels ++ (L₁.filter fun n => n ≠ M - 1).map fun n => backoff_delay_async 1 n⟩ := by
  induction L₁ generalizing errs dels with
  | nil => simp [getLoop, hb]
  | cons n rest ih =>
    rw [List.cons_append, getLoop, hE n (by simp)]
    dsimp only
    by_cases hlast : n ≠ M - 1
    · rw [if_pos hlast, ih _ _ fun i hi => hE i (by simp [hi])]
      simp [List.filter_cons, hlast]
    · rw [if_neg hlast, ih _ _ fun i hi => hE i (by simp [hi])]
      simp only [ne_eq, not_not] at hlast
      simp [List.filter_cons, hlast]

end Scraper

namespace Scraper

/-- C5: the Backoff Policy is the pure function
`backoff_factor * 2 ^ (number_of_retries_made - 1)` (integer exponent);
at attempt index `0` the delay is `backoff_factor * 0.5`, and for indices
`≥ 1` the exponent is the natural number `n - 1`. -/
theorem backoff_delay_policy_spec (f : ℚ) (n : Nat) :
    backoff_delay_async f n = f * (2 : ℚ) ^ ((n : ℤ) - 1)
    ∧ backoff_delay_async f 0 = f * (1 / 2)
    ∧ (1 ≤ n → backoff_delay_async f n = f * (2 : ℚ) ^ (n - 1)) := by
  refine ⟨rfl, ?_, ?_⟩
  · show f * (2 : ℚ) ^ ((0 : ℤ) - 1) = f * (1 / 2)
    norm_num
  · intro hn
    show f * (2 : ℚ) ^ ((n : ℤ) - 1) = f * (2 : ℚ) ^ (n - 1)
    congr 1
    rw [show ((n : ℤ) - 1) = ((n - 1 : Nat) : ℤ) by omega, zpow_natCast]

/-- Witness for C5 at `backoff_factor = 1`, attempt indices `0` and `3`. -/
theorem backoff_delay_policy_spec_witness :
    backoff_delay_async 1 0 = 1 * (1 / 2)
    ∧ (1 ≤ 3 ∧ backoff_delay_async 1 3 = 1 * (2 : ℚ) ^ (3 - 1)) :=
  ⟨(backoff_delay_policy_spec 1 0).2.1,
    by norm_num, (backoff_delay_policy_spec 1 3).2.2 (by norm_num)⟩

/-- C2: when all `max_retries` attempts fail, `get` returns the pair
(`url`, failure sentinel) as a value (never a raised fault), and the
diagnostic record holds exactly `max_retries` error descriptions, one per
failed attempt. -/
theorem get_retries_exhausted_spec (a : FetchOracle) (u : String) (E : Nat → String)
    (hE : ∀ i, i < max_retries → a u i = Except.error (E i)) :
    get a u =
      ⟨u, failureSentinel, (List.range max_retries).map E,
        (List.range (max_retries - 1)).map fun n => backoff_delay_async 1 n⟩
    ∧ (get a u).errors.length = max_retries := by
  have h := getLoop_all_fail a u max_retries E (List.range max_retries) [] []
    fun n hn => hE n (List.mem_range.mp hn)
  have hfilter : (List.range max_retries).filter (fun n => n ≠ max_retries - 1)
      = List.range (max_retries - 1) := by decide
  rw [get, h, hfilter]
  refine ⟨by simp, by simp [max_retries]⟩

/-- Witness for C2: the always-failing network exhausts all five attempts. -/
theorem get_retries_exhausted_spec_witness :
    get alwaysFailOracle "https://www.gov.sg/trusted-sites" =
      ⟨"https://www.gov.sg/trusted-sites", failureSentinel,
        (List.range max_retries).map fun _ => "TimeoutError()",
        (List.range (max_retries - 1)).map fun n => backoff_delay_async 1 n⟩
    ∧ (get alwaysFailOracle "https://www.gov.sg/trusted-sites").errors.length = max_retries :=
  get_retries_exhausted_spec alwaysFailOracle _ (fun _ => "TimeoutError()") fun _ _ => rfl

end Scraper

namespace Scraper

/-- Splitting `range max_retries` at a successful attempt `n - 1`
(`1 ≤ n ≤ max_retries`, 1-based count `n`). -/
theorem range_max_retries_split (n : Nat) (h1 : 1 ≤ n) (h2 : n ≤ max_retries) :
    List.range max_retries
      = List.range (n - 1) ++ (n - 1) :: List.range' n (max_retries - n) := by
  have hm : max_retries = 5 := rfl
  have hs : List.range' (n - 1) (max_retries - n + 1)
      = (n - 1) :: List.range' n (max_retries - n) := by
    rw [List.range'_succ, show n - 1 + 1 = n from by omega]
  have ha := List.range'_append 0 (n - 1) (max_retries - n + 1) 1
  simp only [Nat.zero_add, Nat.one_mul] at ha
  rw [List.range_eq_range', List.range_eq_range', ← hs, ha,
    show max_retries - n + 1 + (n - 1) = max_retries from by omega]

/-- On a list of attempt indices all below `max_retries - 1`, no index is
the final one, so the backoff filter keeps every element. -/
theorem filter_ne_last_of_lt (L : List Nat) (hL : ∀ i ∈ L, i < max_retries - 1) :
    (L.filter fun n => n ≠ max_retries - 1) = L := by
  refine List.filter_eq_self.mpr fun i hi => ?_
  have := hL i hi
  simp only [ne_eq, decide_eq_true_eq]
  omega

/-- C3: if the first `n - 1` attempts fail and attempt `n` (1-based)
succeeds with body `b`, `get` returns `b` as its payload and exactly
`n - 1` backoff delays were awaited, the one after failed attempt `i`
(0-based) being `1 * 2 ^ (i - 1)`. -/
theorem get_success_after_failures_spec (a : FetchOracle) (u : String) (E : Nat → String)
    (n : Nat) (b : String) (h1 : 1 ≤ n) (h2 : n ≤ max_retries)
    (hE : ∀ i, i < n - 1 → a u i = Except.error (E i))
    (hb : a u (n - 1) = Except.ok b) :
    get a u =
      ⟨u, b, (List.range (n - 1)).map E,
        (List.range (n - 1)).map fun i => backoff_delay_async 1 i⟩
    ∧ (get a u).delays.length = n - 1
    ∧ (get a u).delays = (List.range (n - 1)).map fun (i : Nat) => (1 : ℚ) * (2 : ℚ) ^ ((i : ℤ) - 1) := by
  have hsplit := range_max_retries_split n h1 h2
  have h := getLoop_succeeds a u max_retries E (List.range (n - 1))
    (List.range' n (max_retries - n)) (n - 1) b [] []
    (fun i hi => hE i (List.mem_range.mp hi)) hb
  have hfilter := filter_ne_last_of_lt (List.range (n - 1))
    fun i hi => by have := List.mem_range.mp hi; omega
  rw [hfilter] at h
  have hget : get a u =
      ⟨u, b, (List.range (n - 1)).map E,
        (List.range (n - 1)).map fun i => backoff_delay_async 1 i⟩ := by
    rw [get, hsplit, h]
    simp
  refine ⟨hget, ?_, ?_⟩
  · rw [hget]
    simp
  · rw [hget]
    rfl

/-- Witness for C3: two failures then success at the third attempt
(`n = 3`): payload delivered, two delays of `0.5` and `1` time units. -/
theorem get_success_after_failures_spec_witness :
    get failTwiceOracle "https://www.gov.sg/trusted-sites" =
      ⟨"https://www.gov.sg/trusted-sites", "<p></p>",
        (List.range (3 - 1)).map fun _ => "TimeoutError()",
        (List.range (3 - 1)).map fun i => backoff_delay_async 1 i⟩
    ∧ (get failTwiceOracle "https://www.gov.sg/trusted-sites").delays.length = 3 - 1
    ∧ (get failTwiceOracle "https://www.gov.sg/trusted-sites").delays
        = (List.range (3 - 1)).map fun (i : Nat) => (1 : ℚ) * (2 : ℚ) ^ ((i : ℤ) - 1) :=
  get_success_after_failures_spec failTwiceOracle _ (fun _ => "TimeoutError()") 3 "<p></p>"
    (by norm_num) (by norm_num [max_retries])
    (fun i hi => by simp only [failTwiceOracle, if_pos (show i < 2 by omega)])
    rfl

end Scraper

namespace Scraper

/-- Whatever the attempt outcomes, the delays awaited by the retry loop
are the backoff delays of some initial segment of its index list, filtered
of the final index. -/
theorem getLoop_delays_take_shape (a : FetchOracle) (u : String) (M : Nat) (L : List Nat) :
    ∀ (errs : List String) (dels : List ℚ), ∃ k,
      (getLoop a u M L errs dels).delays
        = dels ++ (((L.take k).filter fun n => n ≠ M - 1).map fun n => backoff_delay_async 1 n) := by
  induction L with
  | nil => exact fun errs dels => ⟨0, by simp [getLoop]⟩
  | cons n rest ih =>
    intro errs dels
    rw [getLoop]
    cases h : a u n with
    | ok body => exact ⟨0, by simp⟩
    | error e =>
      dsimp only
      by_cases hlast : n ≠ M - 1
      · rw [if_pos hlast]
        obtain ⟨k, hk⟩ := ih (errs ++ [e]) (dels ++ [backoff_delay_async 1 n])
        exact ⟨k + 1, by rw [hk]; simp [List.take_succ_cons, List.filter_cons, hlast]⟩
      · rw [if_neg hlast]
        obtain ⟨k, hk⟩ := ih (errs ++ [e]) dels
        refine ⟨k + 1, ?_⟩
        rw [hk]
        simp only [ne_eq, not_not] at hlast
        simp [List.take_succ_cons, List.filter_cons, hlast]

/-- The non-final attempt indices of a five-attempt run. -/
theorem filter_range_max_retries :
    ((List.range max_retries).filter fun n => n ≠ max_retries - 1) = [0, 1, 2, 3] := by
  decide

/-- C4 counterexample: with backoff factor `1.0` and `max_retries = 5`,
the worst-case total backoff (all five attempts failing) accumulated by
one `get` call is `7.5` time units, not the claimed
`1*(2^0+2^1+2^2+2^3) = 15`: the code passes the 0-based retry count to
`backoff_delay_async`, so the delays are `2^-1, 2^0, 2^1, 2^2`. -/
theorem worst_case_backoff_not_fifteen :
    (get alwaysFailOracle "https://www.gov.sg/trusted-sites").delays.sum = 15 / 2
    ∧ ((15 : ℚ) / 2) ≠ 15 := by
  have h := getLoop_all_fail alwaysFailOracle "https://www.gov.sg/trusted-sites" max_retries
    (fun _ => "TimeoutError()") (List.range max_retries) [] [] fun n _ => rfl
  rw [get, h]
  refine ⟨?_, by norm_num⟩
  rw [filter_range_max_retries]
  norm_num [backoff_delay_async]

/-- C4 amended: with base multiplier `1.0` and `max_retries = 5`, the
total backoff awaited when all attempts fail is
`1*(2^-1 + 2^0 + 2^1 + 2^2) = 7.5` time units, and no run of `get` ever
awaits more than `7.5` time units of backoff in total. -/
theorem worst_case_backoff_total_spec (a : FetchOracle) (u : String)
    (hfail : ∀ i, i < max_retries → ∃ e, a u i = Except.error e) :
    (get a u).delays.sum = 15 / 2
    ∧ ∀ (a' : FetchOracle) (u' : String), (get a' u').delays.sum ≤ 15 / 2 := by
  constructor
  · have hE : ∀ n ∈ List.range max_retries,
        a u n = Except.error ((fun i =>
          match a u i with
          | .error e => e
          | .ok _ => "") n) := by
      intro n hn
      obtain ⟨e, he⟩ := hfail n (List.mem_range.mp hn)
      simp [he]
    have h := getLoop_all_fail a u max_retries _ (List.range max_retries) [] [] hE
    rw [get, h, filter_range_max_retries]
    norm_num [backoff_delay_async]
  · intro a' u'
    obtain ⟨k, hk⟩ := getLoop_delays_take_shape a' u' max_retries (List.range max_retries) [] []
    rw [get, hk]
    have hsub :
        ((((List.range max_retries).take k).filter fun n => n ≠ max_retries - 1).map
            fun n => backoff_delay_async 1 n).Sublist
          (((List.range max_retries).filter fun n => n ≠ max_retries - 1).map
            fun n => backoff_delay_async 1 n) :=
      List.Sublist.map _ (List.Sublist.filter _ (List.take_sublist k _))
    have hnonneg : ∀ x ∈ ((List.range max_retries).filter fun n => n ≠ max_retries - 1).map
        fun n => backoff_delay_async 1 n, (0 : ℚ) ≤ x := by
      intro x hx
      obtain ⟨n, _, rfl⟩ := List.mem_map.mp hx
      unfold backoff_delay_async
      positivity
    have hle := hsub.sum_le_sum hnonneg
    have hfull : (((List.range max_retries).filter fun n => n ≠ max_retries - 1).map
        fun n => backoff_delay_async 1 n).sum = 15 / 2 := by
      rw [filter_range_max_retries]
      norm_num [backoff_delay_async]
    rw [hfull] at hle
    simpa using hle

/-- Witness for the amended C4 at the always-failing network. -/
theorem worst_case_backoff_total_spec_witness :
    (get alwaysFailOracle "https://www.gov.sg/trusted-sites").delays.sum = 15 / 2
    ∧ ∀ (a' : FetchOracle) (u' : String), (get a' u').delays.sum ≤ 15 / 2 :=
  worst_case_backoff_total_spec alwaysFailOracle "https://www.gov.sg/trusted-sites"
    fun _ _ => ⟨"TimeoutError()", rfl⟩

end Scraper

namespace Scraper

/-- The retry loop always returns the url it was called with (the first
component of the returned pair is the request's url). -/
theorem getLoop_url (a : FetchOracle) (u : String) (M : Nat) :
    ∀ (L : List Nat) (errs : List String) (dels : List ℚ),
      (getLoop a u M L errs dels).url = u := by
  intro L
  induction L with
  | nil => intro errs dels; rfl
  | cons n rest ih =>
    intro errs dels
    rw [getLoop]
    cases h : a u n with
    | ok body => rfl
    | error e =>
      dsimp only
      by_cases hlast : n ≠ M - 1
      · rw [if_pos hlast]; exact ih _ _
      · rw [if_neg hlast]; exact ih _ _

/-- `get` returns its url as the pair's first component. -/
theorem get_url (a : FetchOracle) (u : String) : (get a u).url = u :=
  getLoop_url a u max_retries _ _ _

/-- If some attempt in the loop's index list succeeds, the returned body
is the payload of one of those attempts. -/
theorem getLoop_success_mem (a : FetchOracle) (u : String) (M : Nat) :
    ∀ (L : List Nat) (errs : List String) (dels : List ℚ),
      (∃ n ∈ L, (a u n).isOk = true) →
      ∃ n ∈ L, a u n = Except.ok (getLoop a u M L errs dels).body := by
  intro L
  induction L with
  | nil => rintro errs dels ⟨n, hn, -⟩; exact absurd hn (List.not_mem_nil n)
  | cons n rest ih =>
    rintro errs dels hex
    rw [getLoop]
    cases h : a u n with
    | ok body => exact ⟨n, by simp, by rw [h]⟩
    | error e =>
      dsimp only
      have hrest : ∃ m ∈ rest, (a u m).isOk = true := by
        obtain ⟨m, hm, hok⟩ := hex
        rcases List.mem_cons.mp hm with rfl | hm'
        · rw [h] at hok; simp [Except.isOk, Except.toBool] at hok
        · exact ⟨m, hm', hok⟩
      by_cases hlast : n ≠ M - 1
      · rw [if_pos hlast]
        obtain ⟨m, hm, hbody⟩ := ih _ _ hrest
        exact ⟨m, by simp [hm], hbody⟩
      · rw [if_neg hlast]
        obtain ⟨m, hm, hbody⟩ := ih _ _ hrest
        exact ⟨m, by simp [hm], hbody⟩

/-- When some attempt succeeds, `get`'s body is a successful attempt's
payload. -/
theorem get_body_of_succeeds (a : FetchOracle) (u : String)
    (h : succeedsB a u = true) :
    ∃ i, i < max_retries ∧ a u i = Except.ok (get a u).body := by
  obtain ⟨n, hn, hok⟩ := List.any_eq_true.mp h
  obtain ⟨m, hm, hbody⟩ := getLoop_success_mem a u max_retries
    (List.range max_retries) [] [] ⟨n, hn, hok⟩
  exact ⟨m, List.mem_range.mp hm, hbody⟩

/-- When every attempt fails, `get`'s body is the failure sentinel. -/
theorem get_body_of_not_succeeds (a : FetchOracle) (u : String)
    (h : succeedsB a u = false) :
    (get a u).body = failureSentinel := by
  have hall := List.any_eq_false.mp h
  have hE : ∀ n ∈ List.range max_retries,
      a u n = Except.error ((fun i =>
        match a u i with
        | .error e => e
        | .ok _ => "") n) := by
    intro n hn
    have hnok := hall n hn
    cases he : a u n with
    | ok b =>
      have hko : (a u n).isOk = true := by rw [he]; rfl
      exact absurd hko hnok
    | error e => simp [he]
  rw [get, getLoop_all_fail a u max_retries _ (List.range max_retries) [] [] hE]

/-- C1: the result map of `get_async` has the distinct input endpoints as
its keys (duplicates collapsed, none omitted, no duplicate keys), one
entry per distinct endpoint; every entry whose endpoint had a successful
attempt carries a successful attempt's payload and every entry whose
attempts all failed carries the failure sentinel, so of the `N` distinct
endpoints with `k` successes the map has `N` entries, `k` successes and
`N - k` sentinels. -/
theorem get_async_result_map_spec (a : FetchOracle) (endpoints : List String) :
    (get_async a endpoints).map Prod.fst = endpoints.dedup
    ∧ ((get_async a endpoints).map Prod.fst).toFinset = endpoints.toFinset
    ∧ ((get_async a endpoints).map Prod.fst).Nodup
    ∧ (get_async a endpoints).length = endpoints.dedup.length
    ∧ (∀ p ∈ get_async a endpoints,
        (succeedsB a p.1 = true → ∃ i, i < max_retries ∧ a p.1 i = Except.ok p.2)
        ∧ (succeedsB a p.1 = false → p.2 = failureSentinel))
    ∧ (get_async a endpoints).countP (fun p => succeedsB a p.1)
        + (get_async a endpoints).countP (fun p => !(succeedsB a p.1))
        = endpoints.dedup.length
    ∧ (get_async a endpoints).countP (fun p => succeedsB a p.1)
        = endpoints.dedup.countP fun u => succeedsB a u := by
  have hkeys : (get_async a endpoints).map Prod.fst = endpoints.dedup := by
    rw [get_async, List.map_map]
    have hco : (Prod.fst ∘ fun url => ((get a url).url, (get a url).body))
        = fun url => (get a url).url := rfl
    rw [hco, List.map_congr_left fun u _ => get_url a u]
    simp
  refine ⟨hkeys, ?_, ?_, ?_, ?_, ?_, ?_⟩
  · rw [hkeys]
    ext x
    simp [List.mem_dedup]
  · rw [hkeys]; exact List.nodup_dedup endpoints
  · rw [get_async, List.length_map]
  · intro p hp
    obtain ⟨u, hu, rfl⟩ := List.mem_map.mp hp
    rw [get_url]
    constructor
    · intro hs
      obtain ⟨i, hi, hok⟩ := get_body_of_succeeds a u hs
      exact ⟨i, hi, hok⟩
    · intro hs
      exact get_body_of_not_succeeds a u hs
  · rw [get_async, List.countP_map, List.countP_map]
    have h1 : (((fun p => succeedsB a p.1) ∘
          fun url => ((get a url).url, (get a url).body)) : String → Bool)
        = fun u => succeedsB a (get a u).url := rfl
    have h2 : (((fun p => !(succeedsB a p.1)) ∘
          fun url => ((get a url).url, (get a url).body)) : String → Bool)
        = fun u => !(succeedsB a (get a u).url) := rfl
    have e1 : List.countP (fun u => succeedsB a (get a u).url) endpoints.dedup
        = List.countP (fun u => succeedsB a u) endpoints.dedup :=
      List.countP_congr fun x _ => by rw [get_url]
    have e2 : List.countP (fun u => !(succeedsB a (get a u).url)) endpoints.dedup
        = List.countP (fun u => !(succeedsB a u)) endpoints.dedup :=
      List.countP_congr fun x _ => by rw [get_url]
    rw [h1, h2, e1, e2, List.length_eq_countP_add_countP fun u => succeedsB a u]
    congr 1
    refine List.countP_congr fun x _ => ?_
    simp
  · rw [get_async, List.countP_map]
    have h1 : (((fun p => succeedsB a p.1) ∘
          fun url => ((get a url).url, (get a url).body)) : String → Bool)
        = fun u => succeedsB a (get a u).url := rfl
    rw [h1]
    refine List.countP_congr fun x _ => ?_
    rw [get_url]

end Scraper

namespace Scraper

/-- Witness for C1 at a concrete network and a duplicated endpoint list. -/
theorem get_async_result_map_spec_witness :
    (get_async failTwiceOracle
        ["https://a.example", "https://b.example", "https://a.example"]).map Prod.fst
      = ["https://a.example", "https://b.example", "https://a.example"].dedup :=
  (get_async_result_map_spec failTwiceOracle
    ["https://a.example", "https://b.example", "https://a.example"]).1

/-- Dispatching a single endpoint yields the one-entry map for it. -/
theorem get_async_singleton (a : FetchOracle) (u : String) :
    get_async a [u] = [(u, (get a u).body)] := by
  simp [get_async, get_url]

/-- Looking the trusted-sites endpoint up in its singleton result map. -/
theorem lookup_get_async_singleton (a : FetchOracle) :
    (get_async a [trusted_sites_endpoint]).lookup trusted_sites_endpoint
      = some (get a trusted_sites_endpoint).body := by
  rw [get_async_singleton]
  simp [List.lookup]

/-- When the fetched body is the failure sentinel, `extract_urls` logs the
inaccessibility error and returns the empty set. -/
theorem extract_urls_of_sentinel (a : FetchOracle) (find : HrefExtractor)
    (hb : (get a trusted_sites_endpoint).body = failureSentinel) :
    extract_urls a find = (∅, [LogEvent.inaccessibleError]) := by
  unfold extract_urls
  rw [lookup_get_async_singleton, hb]
  simp

/-- When the fetched body is usable but the parser raises, the fault is
caught at the boundary: `extract_urls` logs it and returns the empty set. -/
theorem extract_urls_of_find_error (a : FetchOracle) (find : HrefExtractor) (e : String)
    (hb : (get a trusted_sites_endpoint).body ≠ failureSentinel)
    (he : find (get a trusted_sites_endpoint).body = Except.error e) :
    extract_urls a find = (∅, [LogEvent.caughtError e]) := by
  unfold extract_urls
  rw [lookup_get_async_singleton]
  simp [hb, he]

/-- When the fetched body is usable and parsing succeeds, `extract_urls`
returns the normalized href set with the empty string removed. -/
theorem extract_urls_of_find_ok (a : FetchOracle) (find : HrefExtractor) (hrefs : List String)
    (hb : (get a trusted_sites_endpoint).body ≠ failureSentinel)
    (he : find (get a trusted_sites_endpoint).body = Except.ok hrefs) :
    extract_urls a find = ((hrefs.map clean_url).toFinset.erase "", []) := by
  unfold extract_urls
  rw [lookup_get_async_singleton]
  simp [hb, he]

/-- C6: `extract_urls` never raises outward — if the fetched payload is
the failure sentinel it logs an accessibility error and returns the empty
set, and a parser/collaborator fault is caught at this boundary, logged,
and converted into an empty-set return. -/
theorem extract_urls_never_raises (a : FetchOracle) (find : HrefExtractor) :
    ((get a trusted_sites_endpoint).body = failureSentinel →
      extract_urls a find = (∅, [LogEvent.inaccessibleError]))
    ∧ (∀ e, (get a trusted_sites_endpoint).body ≠ failureSentinel →
        find (get a trusted_sites_endpoint).body = Except.error e →
        extract_urls a find = (∅, [LogEvent.caughtError e])) :=
  ⟨extract_urls_of_sentinel a find, fun e hb he => extract_urls_of_find_error a find e hb he⟩

/-- Witness for C6: a network that exhausts all retries, then a usable
body whose parse raises. -/
theorem extract_urls_never_raises_witness :
    ((get alwaysFailOracle trusted_sites_endpoint).body = failureSentinel
      ∧ extract_urls alwaysFailOracle raisingHrefs = (∅, [LogEvent.inaccessibleError]))
    ∧ ((get failTwiceOracle trusted_sites_endpoint).body ≠ failureSentinel
      ∧ extract_urls failTwiceOracle raisingHrefs
          = (∅, [LogEvent.caughtError "FeatureNotFound()"])) :=
  ⟨⟨rfl, (extract_urls_never_raises alwaysFailOracle raisingHrefs).1 rfl⟩,
    ⟨by decide,
      (extract_urls_never_raises failTwiceOracle raisingHrefs).2 "FeatureNotFound()"
        (by decide) rfl⟩⟩

/-- C7: whatever the network and parser do, the set returned by
`extract_urls` never contains the empty string. -/
theorem extract_urls_no_empty_string (a : FetchOracle) (find : HrefExtractor) :
    "" ∉ (extract_urls a find).1 := by
  by_cases hb : (get a trusted_sites_endpoint).body = failureSentinel
  · rw [extract_urls_of_sentinel a find hb]
    simp
  · cases he : find (get a trusted_sites_endpoint).body with
    | ok hrefs =>
      rw [extract_urls_of_find_ok a find hrefs hb he]
      exact Finset.not_mem_erase "" _
    | error e =>
      rw [extract_urls_of_find_error a find e hb he]
      simp

/-- C10: when the fetch succeeds at once but the body happens to equal the
sentinel bytes `b"{}"`, `extract_urls` behaves exactly as if every retry
had failed: it logs the inaccessibility error and returns the empty set,
indistinguishable from retry exhaustion at the public interface. -/
theorem extract_urls_empty_json_indistinguishable (a afail : FetchOracle)
    (find : HrefExtractor)
    (hok : a trusted_sites_endpoint 0 = Except.ok failureSentinel)
    (hfail : ∀ i, i < max_retries → ∃ e, afail trusted_sites_endpoint i = Except.error e) :
    extract_urls a find = (∅, [LogEvent.inaccessibleError])
    ∧ extract_urls a find = extract_urls afail find := by
  have hbody : (get a trusted_sites_endpoint).body = failureSentinel := by
    have hsplit : List.range max_retries = [] ++ 0 :: List.range' 1 4 := by decide
    have h := getLoop_succeeds a trusted_sites_endpoint max_retries (fun _ => "")
      [] (List.range' 1 4) 0 failureSentinel [] [] (by simp) hok
    rw [get, hsplit, h]
  have hsucc : succeedsB afail trusted_sites_endpoint = false := by
    refine List.any_eq_false.mpr fun n hn => ?_
    obtain ⟨e, he⟩ := hfail n (List.mem_range.mp hn)
    rw [he]
    simp [Except.isOk, Except.toBool]
  have hbody' : (get afail trusted_sites_endpoint).body = failureSentinel :=
    get_body_of_not_succeeds afail trusted_sites_endpoint hsucc
  refine ⟨extract_urls_of_sentinel a find hbody, ?_⟩
  rw [extract_urls_of_sentinel a find hbody, extract_urls_of_sentinel afail find hbody']

/-- Witness for C10: the empty-JSON network versus the always-failing one. -/
theorem extract_urls_empty_json_indistinguishable_witness :
    extract_urls emptyJsonOracle fixedHrefs = (∅, [LogEvent.inaccessibleError])
    ∧ extract_urls emptyJsonOracle fixedHrefs = extract_urls alwaysFailOracle fixedHrefs :=
  extract_urls_empty_json_indistinguishable emptyJsonOracle alwaysFailOracle fixedHrefs
    rfl fun _ _ => ⟨"TimeoutError()", rfl⟩

end Scraper

namespace Scraper

/-- Counting under `p` after updating index `i` (which held `a`) to `b`:
the count changes by dropping `a`'s contribution and adding `b`'s. -/
theorem countP_set_of_getElem {α : Type} (p : α → Bool) :
    ∀ (l : List α) (i : Nat) (a b : α), l[i]? = some a →
      (l.set i b).countP p + (if p a then 1 else 0)
        = l.countP p + (if p b then 1 else 0) := by
  intro l
  induction l with
  | nil => intro i a b h; simp at h
  | cons x xs ih =>
    intro i a b h
    cases i with
    | zero =>
      simp only [List.getElem?_cons_zero, Option.some_inj] at h
      subst h
      simp only [List.set_cons_zero, List.countP_cons]
      omega
    | succ j =>
      simp only [List.getElem?_cons_succ] at h
      have := ih j a b h
      simp only [List.set_cons_succ, List.countP_cons]
      omega

/-- A single scheduler step keeps the number of held semaphore slots
within the capacity. -/
theorem semStep_heldSlots_le (cap : Nat) (ts ts' : List TaskPhase)
    (h : SemStep cap ts ts') (hle : heldSlots ts ≤ cap) : heldSlots ts' ≤ cap := by
  cases h with
  | acquire i hi hcap =>
    have hc := countP_set_of_getElem (fun p => p.holdsSlot) ts i .pending .settling hi
    rw [show (if ((fun (p : TaskPhase) => p.holdsSlot) TaskPhase.pending) = true
          then 1 else 0) = 0 from rfl,
      show (if ((fun (p : TaskPhase) => p.holdsSlot) TaskPhase.settling) = true
          then 1 else 0) = 1 from rfl] at hc
    unfold heldSlots at hcap ⊢
    omega
  | issue i hi =>
    have hc := countP_set_of_getElem (fun p => p.holdsSlot) ts i .settling .inflight hi
    rw [show (if ((fun (p : TaskPhase) => p.holdsSlot) TaskPhase.settling) = true
          then 1 else 0) = 1 from rfl,
      show (if ((fun (p : TaskPhase) => p.holdsSlot) TaskPhase.inflight) = true
          then 1 else 0) = 1 from rfl] at hc
    unfold heldSlots at hle ⊢
    omega
  | complete i hi =>
    have hc := countP_set_of_getElem (fun p => p.holdsSlot) ts i .inflight .finished hi
    rw [show (if ((fun (p : TaskPhase) => p.holdsSlot) TaskPhase.inflight) = true
          then 1 else 0) = 1 from rfl,
      show (if ((fun (p : TaskPhase) => p.holdsSlot) TaskPhase.finished) = true
          then 1 else 0) = 0 from rfl] at hc
    unfold heldSlots at hle ⊢
    omega

/-- Along every run of the scheduler the held slots never exceed the
semaphore capacity. -/
theorem semReachable_heldSlots_le (cap n : Nat) (ts : List TaskPhase)
    (h : SemReachable cap n ts) : heldSlots ts ≤ cap := by
  induction h with
  | refl =>
    have : heldSlots (List.replicate n .pending) = 0 := by
      refine List.countP_eq_zero.mpr fun a ha => ?_
      rw [List.eq_of_mem_replicate ha]
      simp [TaskPhase.holdsSlot]
    omega
  | tail hsteps hstep ih => exact semStep_heldSlots_le _ _ _ hstep ih

/-- C9: in every state reachable during a `gather_with_concurrency` run,
at most `cap = max_concurrent_requests` fetches are in the
request-in-flight state: the semaphore admits a pending task only while a
slot is free, and in-flight tasks all hold slots. -/
theorem gather_with_concurrency_admission_bound (cap n : Nat) (ts : List TaskPhase)
    (h : SemReachable cap n ts) : inflightCount ts ≤ cap := by
  have hmono : inflightCount ts ≤ heldSlots ts := by
    unfold inflightCount heldSlots
    refine List.countP_mono_left fun p _ hp => ?_
    cases p <;> simp_all [TaskPhase.holdsSlot]
  exact le_trans hmono (semReachable_heldSlots_le cap n ts h)

/-- Witness for C9: with capacity 1 and two scheduled tasks, the state
with one in-flight and one pending task is reachable and satisfies the
bound. -/
theorem gather_with_concurrency_admission_bound_witness :
    SemReachable 1 2 [TaskPhase.inflight, TaskPhase.pending]
    ∧ inflightCount [TaskPhase.inflight, TaskPhase.pending] ≤ 1 := by
  have s1 : SemStep 1 [TaskPhase.pending, TaskPhase.pending]
      [TaskPhase.settling, TaskPhase.pending] :=
    SemStep.acquire [TaskPhase.pending, TaskPhase.pending] 0 rfl (by decide)
  have s2 : SemStep 1 [TaskPhase.settling, TaskPhase.pending]
      [TaskPhase.inflight, TaskPhase.pending] :=
    SemStep.issue [TaskPhase.settling, TaskPhase.pending] 0 rfl
  have hreach : SemReachable 1 2 [TaskPhase.inflight, TaskPhase.pending] :=
    Relation.ReflTransGen.tail (Relation.ReflTransGen.tail Relation.ReflTransGen.refl s1) s2
  exact ⟨hreach, gather_with_concurrency_admission_bound 1 2 _ hreach⟩

end Scraper

namespace Scraper

/-! ### Label splitting and joining -/

/-- `joinDot` on the empty list. -/
theorem joinDot_nil : joinDot [] = [] := rfl

/-- `joinDot` on a one-label list. -/
theorem joinDot_singleton (l : List Char) : joinDot [l] = l := rfl

/-- Unfolding `joinDot` on a two-or-more-element list. -/
theorem joinDot_cons_cons (l m : List Char) (ms : List (List Char)) :
    joinDot (l :: m :: ms) = l ++ '.' :: joinDot (m :: ms) := rfl

/-- Python `str.split` never returns an empty list. -/
theorem splitOnDot_ne_nil (s : List Char) : splitOnDot s ≠ [] := by
  cases s with
  | nil => simp [splitOnDot]
  | cons c rest =>
    rw [splitOnDot]
    by_cases hc : c = '.'
    · simp [hc]
    · rw [if_neg hc]
      cases h : splitOnDot rest <;> simp

/-- Every character of a label comes from the split string. -/
theorem mem_of_mem_splitOnDot (c : Char) :
    ∀ (s : List Char) (l : List Char), l ∈ splitOnDot s → c ∈ l → c ∈ s := by
  intro s
  induction s with
  | nil =>
    intro l hl hc
    simp [splitOnDot] at hl
    subst hl
    simp at hc
  | cons x rest ih =>
    intro l hl hc
    rw [splitOnDot] at hl
    by_cases hx : x = '.'
    · rw [if_pos hx] at hl
      rcases List.mem_cons.mp hl with rfl | hl'
      · simp at hc
      · exact List.mem_cons_of_mem x (ih l hl' hc)
    · rw [if_neg hx] at hl
      cases h : splitOnDot rest with
      | nil => exact absurd h (splitOnDot_ne_nil rest)
      | cons m ms =>
        rw [h] at hl
        rcases List.mem_cons.mp hl with rfl | hl'
        · rcases List.mem_cons.mp hc with rfl | hc'
          · exact List.mem_cons_self c rest
          · exact List.mem_cons_of_mem x (ih m (by rw [h]; exact List.mem_cons_self m ms) hc')
        · exact List.mem_cons_of_mem x (ih l (by rw [h]; exact List.mem_cons_of_mem m hl') hc)

/-- The labels produced by splitting contain no dot. -/
theorem not_dot_mem_splitOnDot :
    ∀ (s : List Char) (l : List Char), l ∈ splitOnDot s → '.' ∉ l := by
  intro s
  induction s with
  | nil =>
    intro l hl
    simp [splitOnDot] at hl
    subst hl
    simp
  | cons x rest ih =>
    intro l hl
    rw [splitOnDot] at hl
    by_cases hx : x = '.'
    · rw [if_pos hx] at hl
      rcases List.mem_cons.mp hl with rfl | hl'
      · simp
      · exact ih l hl'
    · rw [if_neg hx] at hl
      cases h : splitOnDot rest with
      | nil => exact absurd h (splitOnDot_ne_nil rest)
      | cons m ms =>
        rw [h] at hl
        rcases List.mem_cons.mp hl with rfl | hl'
        · intro hmem
          rcases List.mem_cons.mp hmem with heq | hmem'
          · exact hx heq.symm
          · exact ih m (by rw [h]; exact List.mem_cons_self m ms) hmem'
        · exact ih l (by rw [h]; exact List.mem_cons_of_mem m hl')

/-- Joining undoes splitting. -/
theorem joinDot_splitOnDot : ∀ (s : List Char), joinDot (splitOnDot s) = s := by
  intro s
  induction s with
  | nil => rfl
  | cons x rest ih =>
    rw [splitOnDot]
    by_cases hx : x = '.'
    · rw [if_pos hx, hx]
      cases h : splitOnDot rest with
      | nil => exact absurd h (splitOnDot_ne_nil rest)
      | cons m ms =>
        rw [h] at ih
        rw [joinDot_cons_cons, ih]
        rfl
    · rw [if_neg hx]
      cases h : splitOnDot rest with
      | nil => exact absurd h (splitOnDot_ne_nil rest)
      | cons m ms =>
        rw [h] at ih
        cases ms with
        | nil =>
          rw [joinDot_singleton]
          rw [joinDot_singleton] at ih
          rw [ih]
        | cons m' ms' =>
          rw [joinDot_cons_cons]
          rw [joinDot_cons_cons] at ih
          rw [List.cons_append, ih]

/-- Splitting a dot-free string yields that single label. -/
theorem splitOnDot_eq_singleton (l : List Char) (hl : ('.') ∉ l) : splitOnDot l = [l] := by
  induction l with
  | nil => rfl
  | cons c rest ih =>
    have hc : ¬(c = '.') := fun h => hl (by rw [h]; exact List.mem_cons_self _ _)
    rw [splitOnDot, if_neg hc, ih fun h => hl (List.mem_cons_of_mem c h)]

/-- Splitting at an explicit separating dot after a dot-free label. -/
theorem splitOnDot_label_dot (t : List Char) :
    ∀ (l : List Char), ('.') ∉ l → splitOnDot (l ++ '.' :: t) = l :: splitOnDot t := by
  intro l
  induction l with
  | nil =>
    intro _
    rw [List.nil_append, splitOnDot, if_pos rfl]
  | cons c rest ih =>
    intro hl
    have hc : ¬(c = '.') := fun h => hl (by rw [h]; exact List.mem_cons_self _ _)
    rw [List.cons_append, splitOnDot, if_neg hc,
      ih fun h => hl (List.mem_cons_of_mem c h)]

/-- Splitting undoes joining, for a nonempty list of dot-free labels. -/
theorem splitOnDot_joinDot :
    ∀ (Ls : List (List Char)), Ls ≠ [] → (∀ l ∈ Ls, ('.') ∉ l) →
      splitOnDot (joinDot Ls) = Ls := by
  intro Ls
  induction Ls with
  | nil => intro h; exact absurd rfl h
  | cons l ls ih =>
    intro _ hdot
    cases ls with
    | nil =>
      rw [joinDot_singleton]
      exact splitOnDot_eq_singleton l (hdot l (List.mem_cons_self l []))
    | cons m ms =>
      rw [joinDot_cons_cons, splitOnDot_label_dot _ l (hdot l (List.mem_cons_self l _))]
      rw [ih (by simp) fun x hx => hdot x (List.mem_cons_of_mem l hx)]

/-- Every character of a joined string is a dot or comes from a label. -/
theorem mem_joinDot :
    ∀ (Ls : List (List Char)) (c : Char), c ∈ joinDot Ls → c = '.' ∨ ∃ l ∈ Ls, c ∈ l := by
  intro Ls
  induction Ls with
  | nil => intro c hc; simp [joinDot_nil] at hc
  | cons l ls ih =>
    intro c hc
    cases ls with
    | nil =>
      rw [joinDot_singleton] at hc
      exact Or.inr ⟨l, List.mem_cons_self l [], hc⟩
    | cons m ms =>
      rw [joinDot_cons_cons] at hc
      rcases List.mem_append.mp hc with h | h
      · exact Or.inr ⟨l, List.mem_cons_self l _, h⟩
      · rcases List.mem_cons.mp h with rfl | h'
        · exact Or.inl rfl
        · rcases ih c h' with h'' | ⟨x, hx, hcx⟩
          · exact Or.inl h''
          · exact Or.inr ⟨x, List.mem_cons_of_mem l hx, hcx⟩

/-- Flattening a nested join: a joined first label merges with the rest. -/
theorem joinDot_flatten (rest : List (List Char)) :
    ∀ (A : List (List Char)), A ≠ [] → joinDot (joinDot A :: rest) = joinDot (A ++ rest) := by
  intro A
  induction A with
  | nil => intro h; exact absurd rfl h
  | cons a as ih =>
    intro _
    cases as with
    | nil =>
      cases rest with
      | nil => rfl
      | cons r rs => rfl
    | cons b bs =>
      have ihh := ih (by simp)
      cases rest with
      | nil => simp [joinDot_singleton]
      | cons r rs =>
        calc joinDot (joinDot (a :: b :: bs) :: r :: rs)
            = (a ++ '.' :: joinDot (b :: bs)) ++ '.' :: joinDot (r :: rs) := by
              rw [joinDot_cons_cons, joinDot_cons_cons]
          _ = a ++ '.' :: joinDot (joinDot (b :: bs) :: r :: rs) := by
              rw [joinDot_cons_cons]
              simp [List.append_assoc]
          _ = a ++ '.' :: joinDot ((b :: bs) ++ r :: rs) := by rw [ihh]
          _ = joinDot ((a :: b :: bs) ++ r :: rs) := rfl

end Scraper

namespace Scraper

/-! ### Stage lemmas for the host pipeline -/

/-- `dropWhile` keeps a list whose members all refute the predicate. -/
theorem dropWhile_eq_self_of_all {p : Char → Bool} {l : List Char}
    (h : ∀ c ∈ l, p c = false) : l.dropWhile p = l := by
  cases l with
  | nil => rfl
  | cons c rest =>
    rw [List.dropWhile_cons, if_neg]
    rw [h c (List.mem_cons_self c rest)]
    simp

/-- `takeWhile` keeps a list whose members all satisfy the predicate. -/
theorem takeWhile_eq_self_of_all {p : Char → Bool} :
    ∀ {l : List Char}, (∀ c ∈ l, p c = true) → l.takeWhile p = l := by
  intro l
  induction l with
  | nil => intro _; rfl
  | cons c rest ih =>
    intro h
    rw [List.takeWhile_cons, if_pos (h c (List.mem_cons_self c rest))]
    rw [ih fun x hx => h x (List.mem_cons_of_mem c hx)]

/-- Characters surviving `trimChars` come from the input. -/
theorem mem_trimChars {l : List Char} {c : Char} (h : c ∈ trimChars l) : c ∈ l := by
  unfold trimChars at h
  rw [List.mem_reverse] at h
  have h1 := (List.dropWhile_sublist (l := (l.dropWhile isPyWhitespace).reverse)
    isPyWhitespace).subset h
  rw [List.mem_reverse] at h1
  exact (List.dropWhile_sublist isPyWhitespace).subset h1

/-- Characters surviving `rstripSlash` come from the input. -/
theorem mem_rstripSlash {l : List Char} {c : Char} (h : c ∈ rstripSlash l) : c ∈ l := by
  unfold rstripSlash at h
  rw [List.mem_reverse] at h
  have h1 := (List.dropWhile_sublist (l := l.reverse) fun c => c == '/').subset h
  rwa [List.mem_reverse] at h1

/-- Characters surviving `rstripDots` come from the input. -/
theorem mem_rstripDots {l : List Char} {c : Char} (h : c ∈ rstripDots l) : c ∈ l := by
  unfold rstripDots at h
  rw [List.mem_reverse] at h
  have h1 := (List.dropWhile_sublist (l := l.reverse) fun c => c == '.').subset h
  rwa [List.mem_reverse] at h1

/-- Characters surviving `dropScheme` come from the input. -/
theorem mem_dropScheme {l : List Char} {c : Char} (h : c ∈ dropScheme l) : c ∈ l := by
  unfold dropScheme at h
  split at h
  · simp_all
  · split at h
    · rename_i heq
      have h1 : c ∈ l.dropWhile isSchemeChar := by
        rw [heq]
        simp [h]
      exact (List.dropWhile_sublist isSchemeChar).subset h1
    · exact h

/-- Characters surviving `takeHostPart` come from the input and are not
path/query/fragment delimiters. -/
theorem mem_takeHostPart {l : List Char} {c : Char} (h : c ∈ takeHostPart l) :
    c ∈ l ∧ c ≠ '/' ∧ c ≠ '?' ∧ c ≠ '#' := by
  have hmem := (List.takeWhile_sublist (l := l) _).subset h
  have hp := List.mem_takeWhile_imp h
  simp only [Bool.not_eq_true', Bool.or_eq_false_iff, beq_eq_false_iff_ne] at hp
  exact ⟨hmem, hp.1.1, hp.1.2, hp.2⟩

/-- Characters surviving `afterLastAt` come from the input and are not `@`. -/
theorem mem_afterLastAt {l : List Char} {c : Char} (h : c ∈ afterLastAt l) :
    c ∈ l ∧ c ≠ '@' := by
  unfold afterLastAt at h
  rw [List.mem_reverse] at h
  have hmem := (List.takeWhile_sublist (l := l.reverse) _).subset h
  have hp := List.mem_takeWhile_imp h
  rw [List.mem_reverse] at hmem
  simp only [bne_iff_ne, ne_eq] at hp
  exact ⟨hmem, hp⟩

/-- Characters surviving `beforeColon` come from the input and are not `:`. -/
theorem mem_beforeColon {l : List Char} {c : Char} (h : c ∈ beforeColon l) :
    c ∈ l ∧ c ≠ ':' := by
  have hmem := (List.takeWhile_sublist (l := l) _).subset h
  have hp := List.mem_takeWhile_imp h
  simp only [bne_iff_ne, ne_eq] at hp
  exact ⟨hmem, hp⟩

/-- A character of the extracted host comes from the input and is none of
the delimiters the parser cuts at. -/
theorem mem_lenient_netloc {t : List Char} {c : Char} (hc : c ∈ lenient_netloc t) :
    c ∈ t ∧ c ≠ '/' ∧ c ≠ '?' ∧ c ≠ '#' ∧ c ≠ '@' ∧ c ≠ ':' := by
  unfold lenient_netloc at hc
  have h1 := mem_trimChars (mem_rstripDots hc)
  obtain ⟨h2, hcolon⟩ := mem_beforeColon h1
  obtain ⟨h3, hat⟩ := mem_afterLastAt h2
  obtain ⟨h4, hs, hq, hh⟩ := mem_takeHostPart h3
  exact ⟨mem_dropScheme h4, hs, hq, hh, hat, hcolon⟩

end Scraper

namespace Scraper

/-- `trimChars` is the identity on whitespace-free strings. -/
theorem trimChars_eq_self {l : List Char} (h : ∀ c ∈ l, isPyWhitespace c = false) :
    trimChars l = l := by
  unfold trimChars
  rw [dropWhile_eq_self_of_all h,
    dropWhile_eq_self_of_all fun c hc => h c (List.mem_reverse.mp hc),
    List.reverse_reverse]

/-- `rstripSlash` is the identity on slash-free strings. -/
theorem rstripSlash_eq_self {l : List Char} (h : ('/') ∉ l) : rstripSlash l = l := by
  unfold rstripSlash
  rw [dropWhile_eq_self_of_all fun c hc => by
      simp only [beq_eq_false_iff_ne, ne_eq]
      intro hcs
      exact h (hcs ▸ List.mem_reverse.mp hc),
    List.reverse_reverse]

/-- `rstripDots` is the identity when the last character is not a dot. -/
theorem rstripDots_eq_self {l : List Char} (h : l.getLast? ≠ some '.') :
    rstripDots l = l := by
  unfold rstripDots
  cases hr : l.reverse with
  | nil =>
    rw [List.reverse_eq_nil_iff] at hr
    rw [hr]
    rfl
  | cons c t =>
    have hc : c ≠ '.' := by
      intro hcc
      apply h
      rw [← List.head?_reverse, hr, hcc]
      rfl
    rw [List.dropWhile_cons, if_neg (by simp [hc]), ← hr, List.reverse_reverse]

/-- `dropScheme` is the identity on strings without `/` and `:`. -/
theorem dropScheme_eq_self {l : List Char} (h1 : ('/') ∉ l) (h2 : (':') ∉ l) :
    dropScheme l = l := by
  unfold dropScheme
  split
  · rename_i rest
    exact absurd (List.mem_cons_self '/' ('/' :: rest)) h1
  · split
    · rename_i rest heq
      have : (':') ∈ l.dropWhile isSchemeChar := by
        rw [heq]
        exact List.mem_cons_self ':' _
      exact absurd ((List.dropWhile_sublist isSchemeChar).subset this) h2
    · rfl

/-- `takeHostPart` is the identity on strings without `/`, `?`, `#`. -/
theorem takeHostPart_eq_self {l : List Char}
    (h : ∀ c ∈ l, c ≠ '/' ∧ c ≠ '?' ∧ c ≠ '#') : takeHostPart l = l := by
  unfold takeHostPart
  refine takeWhile_eq_self_of_all fun c hc => ?_
  obtain ⟨hs, hq, hh⟩ := h c hc
  simp [hs, hq, hh]

/-- `afterLastAt` is the identity on `@`-free strings. -/
theorem afterLastAt_eq_self {l : List Char} (h : ('@') ∉ l) : afterLastAt l = l := by
  unfold afterLastAt
  rw [takeWhile_eq_self_of_all fun c hc => by
      simp only [bne_iff_ne, ne_eq]
      intro hcc
      exact h (hcc ▸ List.mem_reverse.mp hc),
    List.reverse_reverse]

/-- `beforeColon` is the identity on `:`-free strings. -/
theorem beforeColon_eq_self {l : List Char} (h : (':') ∉ l) : beforeColon l = l := by
  unfold beforeColon
  refine takeWhile_eq_self_of_all fun c hc => ?_
  simp only [bne_iff_ne, ne_eq]
  intro hcc
  exact h (hcc ▸ hc)

/-- The host parser leaves an already-extracted host unchanged. -/
theorem lenient_netloc_eq_self {l : List Char}
    (hsafe : ∀ c ∈ l, hostSafeChar c = true)
    (hlast : l.getLast? ≠ some '.') : lenient_netloc l = l := by
  have hprops : ∀ c ∈ l, c ≠ '/' ∧ c ≠ '?' ∧ c ≠ '#' ∧ c ≠ '@' ∧ c ≠ ':'
      ∧ isPyWhitespace c = false := by
    intro c hc
    have := hsafe c hc
    unfold hostSafeChar at this
    simp only [Bool.not_eq_true', Bool.or_eq_false_iff, beq_eq_false_iff_ne, ne_eq] at this
    obtain ⟨⟨⟨⟨⟨⟨hs, hq⟩, hh⟩, ha⟩, hcn⟩, _⟩, hw⟩ := this
    exact ⟨hs, hq, hh, ha, hcn, hw⟩
  unfold lenient_netloc
  rw [dropScheme_eq_self (fun hm => (hprops '/' hm).1 rfl) fun hm => (hprops ':' hm).2.2.2.2.1 rfl,
    takeHostPart_eq_self fun c hc => ⟨(hprops c hc).1, (hprops c hc).2.1, (hprops c hc).2.2.1⟩,
    afterLastAt_eq_self fun hm => (hprops '@' hm).2.2.2.1 rfl,
    beforeColon_eq_self fun hm => (hprops ':' hm).2.2.2.2.1 rfl,
    trimChars_eq_self fun c hc => (hprops c hc).2.2.2.2.2,
    rstripDots_eq_self hlast]

end Scraper

namespace Scraper

/-- Dropping the last two labels of `A ++ [d, s]` recovers `A`. -/
theorem dropLast_dropLast_append_pair (A : List (List Char)) (d s : List Char) :
    (A ++ [d, s]).dropLast.dropLast = A := by
  rw [show A ++ [d, s] = (A ++ [d]) ++ [s] by simp, List.dropLast_concat,
    List.dropLast_concat]

/-- The second-to-last label of `A ++ [d, s]`. -/
theorem dropLast_getLastD_append_pair (A : List (List Char)) (d s : List Char) :
    ((A ++ [d, s]).dropLast).getLastD [] = d := by
  rw [show A ++ [d, s] = (A ++ [d]) ++ [s] by simp, List.dropLast_concat,
    List.getLastD_concat]

/-- The last label of `A ++ [d, s]`. -/
theorem getLastD_append_pair (A : List (List Char)) (d s : List Char) :
    (A ++ [d, s]).getLastD [] = s := by
  rw [show A ++ [d, s] = (A ++ [d]) ++ [s] by simp, List.getLastD_concat]

/-- The last character of a joined label list is the last character of its
final label, when that label is nonempty. -/
theorem getLast_joinDot_append (sfx : List Char) (hs : sfx ≠ []) :
    ∀ (A : List (List Char)), (joinDot (A ++ [sfx])).getLast? = sfx.getLast? := by
  intro A
  induction A with
  | nil => rw [List.nil_append, joinDot_singleton]
  | cons a A' ih =>
    cases hX : A' ++ [sfx] with
    | nil => simp at hX
    | cons x xs =>
      rw [List.cons_append, hX, joinDot_cons_cons]
      have hJ : (joinDot (x :: xs)).getLast? = sfx.getLast? := by rw [← hX, ih]
      have hJne : joinDot (x :: xs) ≠ [] := by
        intro hnil
        rw [hnil] at hJ
        have : sfx = [] := List.getLast?_eq_none_iff.mp hJ.symm
        exact hs this
      rw [List.getLast?_append]
      cases hJl : joinDot (x :: xs) with
      | nil => exact absurd hJl hJne
      | cons j js =>
        rw [List.getLast?_cons_cons, ← hJl, hJ]
        have : sfx.getLast?.isSome = true := List.getLast?_isSome.mpr hs
        cases hlast : sfx.getLast? with
        | none => rw [hlast] at this; simp at this
        | some v => rfl

end Scraper

namespace Scraper

/-- Unpacking `hostSafeChar`. -/
theorem hostSafeChar_props {c : Char} (h : hostSafeChar c = true) :
    c ≠ '/' ∧ c ≠ '?' ∧ c ≠ '#' ∧ c ≠ '@' ∧ c ≠ ':'
      ∧ isZWSpace c = false ∧ isPyWhitespace c = false := by
  unfold hostSafeChar at h
  simp only [Bool.not_eq_true', Bool.or_eq_false_iff, beq_eq_false_iff_ne, ne_eq] at h
  obtain ⟨⟨⟨⟨⟨⟨hs, hq⟩, hh⟩, ha⟩, hcn⟩, hz⟩, hw⟩ := h
  exact ⟨hs, hq, hh, ha, hcn, hz, hw⟩

/-- `clean_url_chars` is the identity on a canonically-shaped host: a
nonempty dot-joined label list `subLs ++ [domain, suffix]` of dot-free,
host-safe, already-lowercase labels whose subdomain part is not exactly
`www`. -/
theorem clean_url_chars_canonical (subLs : List (List Char)) (d sfx : List Char)
    (hd : d ≠ []) (hs : sfx ≠ [])
    (hdot : ∀ l ∈ subLs ++ [d, sfx], ('.') ∉ l)
    (hsafe : ∀ c ∈ joinDot (subLs ++ [d, sfx]), hostSafeChar c = true)
    (hlow : ∀ c ∈ joinDot (subLs ++ [d, sfx]), c.toLower = c)
    (hsub : joinDot subLs = [] → subLs = [])
    (hwww : joinDot subLs ≠ ['w', 'w', 'w']) :
    clean_url_chars (joinDot (subLs ++ [d, sfx])) = joinDot (subLs ++ [d, sfx]) := by
  have h1 : (joinDot (subLs ++ [d, sfx])).filter (fun c => !(isZWSpace c))
      = joinDot (subLs ++ [d, sfx]) :=
    List.filter_eq_self.mpr fun c hc => by
      rw [(hostSafeChar_props (hsafe c hc)).2.2.2.2.2.1]
      rfl
  have h2 : trimChars (joinDot (subLs ++ [d, sfx])) = joinDot (subLs ++ [d, sfx]) :=
    trimChars_eq_self fun c hc => (hostSafeChar_props (hsafe c hc)).2.2.2.2.2.2
  have h3 : rstripSlash (joinDot (subLs ++ [d, sfx])) = joinDot (subLs ++ [d, sfx]) :=
    rstripSlash_eq_self fun hm => (hostSafeChar_props (hsafe '/' hm)).1 rfl
  have hlast : (joinDot (subLs ++ [d, sfx])).getLast? ≠ some '.' := by
    rw [show subLs ++ [d, sfx] = (subLs ++ [d]) ++ [sfx] by simp,
      getLast_joinDot_append sfx hs]
    intro hdotlast
    exact hdot sfx (by simp) (List.mem_of_mem_getLast? hdotlast)
  have hnet : lenient_netloc (joinDot (subLs ++ [d, sfx])) = joinDot (subLs ++ [d, sfx]) :=
    lenient_netloc_eq_self hsafe hlast
  have hsplitJ : splitOnDot (joinDot (subLs ++ [d, sfx])) = subLs ++ [d, sfx] :=
    splitOnDot_joinDot _ (by simp) hdot
  have hext : tldextract_extract (joinDot (subLs ++ [d, sfx]))
      = ⟨joinDot subLs, d, sfx⟩ := by
    unfold tldextract_extract
    dsimp only
    rw [hnet, hsplitJ, if_pos (by simp)]
    rw [dropLast_dropLast_append_pair, dropLast_getLastD_append_pair, getLastD_append_pair]
  unfold clean_url_chars
  dsimp only
  rw [h1, h2, h3, hext]
  have hsubfield : (ExtractResult.mk (joinDot subLs) d sfx).subdomain = joinDot subLs := rfl
  rw [hsubfield, if_neg hwww]
  have hfqdn : (ExtractResult.mk (joinDot subLs) d sfx).fqdn
      = joinDot (subLs ++ [d, sfx]) := by
    unfold ExtractResult.fqdn
    rw [if_pos ⟨hd, hs⟩]
    by_cases h0 : joinDot subLs = []
    · rw [if_pos h0, hsub h0]
    · rw [if_neg h0, List.singleton_append, joinDot_flatten [d, sfx] subLs
        fun hnil => h0 (by rw [hnil]; rfl)]
  rw [hfqdn, List.map_congr_left fun c hc => hlow c hc]
  simp

end Scraper

namespace Scraper

/-- `getLastD` of a nonempty list is a member. -/
theorem getLastD_mem (l : List (List Char)) (h : l ≠ []) : l.getLastD [] ∈ l := by
  rw [List.getLastD_eq_getLast?, List.getLast?_eq_getLast l h]
  exact List.getLast_mem h

/-- A list of length at least two splits as its front plus its last two
elements. -/
theorem eq_dropLast_dropLast_append (l : List (List Char)) (h : l.length ≥ 2) :
    l = l.dropLast.dropLast ++ [l.dropLast.getLastD [], l.getLastD []] := by
  have h1 : l ≠ [] := by
    intro hnil
    rw [hnil] at h
    simp at h
  have h2 : l.dropLast ≠ [] := by
    intro hnil
    have := congrArg List.length hnil
    rw [List.length_dropLast] at this
    simp at this
    omega
  conv_lhs => rw [← List.dropLast_append_getLast h1]
  conv_lhs => rw [← List.dropLast_append_getLast h2]
  rw [List.getLastD_eq_getLast?, List.getLast?_eq_getLast l.dropLast h2,
    List.getLastD_eq_getLast?, List.getLast?_eq_getLast l h1]
  simp

/-- Normalizing the empty string yields the empty string. -/
theorem clean_url_chars_nil : clean_url_chars [] = [] := rfl

end Scraper

namespace Scraper

/-- Characters of a joined label list inherit a property that holds for
the dot and for every label character. -/
theorem joinDot_chars_good (A : List (List Char)) (P : Char → Prop)
    (hdotP : P '.') (hl : ∀ l ∈ A, ∀ c ∈ l, P c) : ∀ c ∈ joinDot A, P c := by
  intro c hc
  rcases mem_joinDot A c hc with rfl | ⟨l, hlm, hcl⟩
  · exact hdotP
  · exact hl l hlm c hcl

/-- The second normalization pass fixes the value produced by a first
pass whose extract was `⟨joinDot A0, d, sfx⟩` with dot-free, host-safe,
lowercase labels. -/
theorem clean_pass_two (A0 : List (List Char)) (d sfx : List Char)
    (hd_dot : ('.') ∉ d) (hsfx_dot : ('.') ∉ sfx)
    (hd_chars : ∀ c ∈ d, hostSafeChar c = true ∧ c.toLower = c)
    (hsfx_chars : ∀ c ∈ sfx, hostSafeChar c = true ∧ c.toLower = c)
    (_hA0_dot : ∀ l ∈ A0, ('.') ∉ l)
    (hA0_chars : ∀ l ∈ A0, ∀ c ∈ l, hostSafeChar c = true ∧ c.toLower = c) :
    clean_url_chars (List.map Char.toLower
      (if (⟨joinDot A0, d, sfx⟩ : ExtractResult).subdomain = ['w', 'w', 'w']
        then (⟨joinDot A0, d, sfx⟩ : ExtractResult).top_domain_under_public_suffix
        else (⟨joinDot A0, d, sfx⟩ : ExtractResult).fqdn))
      = List.map Char.toLower
        (if (⟨joinDot A0, d, sfx⟩ : ExtractResult).subdomain = ['w', 'w', 'w']
          then (⟨joinDot A0, d, sfx⟩ : ExtractResult).top_domain_under_public_suffix
          else (⟨joinDot A0, d, sfx⟩ : ExtractResult).fqdn) := by
  by_cases hde : d = []
  · by_cases hw : (⟨joinDot A0, d, sfx⟩ : ExtractResult).subdomain = ['w', 'w', 'w']
    · rw [if_pos hw]
      have htop0 : (⟨joinDot A0, d, sfx⟩ : ExtractResult).top_domain_under_public_suffix
          = [] := by
        unfold ExtractResult.top_domain_under_public_suffix
        rw [if_neg fun hcon => hcon.1 hde]
      rw [htop0]
      simp [clean_url_chars_nil]
    · rw [if_neg hw]
      have hfq0 : (⟨joinDot A0, d, sfx⟩ : ExtractResult).fqdn = [] := by
        unfold ExtractResult.fqdn
        rw [if_neg fun hcon => hcon.1 hde]
      rw [hfq0]
      simp [clean_url_chars_nil]
  · by_cases hse : sfx = []
    · by_cases hw : (⟨joinDot A0, d, sfx⟩ : ExtractResult).subdomain = ['w', 'w', 'w']
      · rw [if_pos hw]
        have htop0 : (⟨joinDot A0, d, sfx⟩ : ExtractResult).top_domain_under_public_suffix
            = [] := by
          unfold ExtractResult.top_domain_under_public_suffix
          rw [if_neg fun hcon => hcon.2 hse]
        rw [htop0]
        simp [clean_url_chars_nil]
      · rw [if_neg hw]
        have hfq0 : (⟨joinDot A0, d, sfx⟩ : ExtractResult).fqdn = [] := by
          unfold ExtractResult.fqdn
          rw [if_neg fun hcon => hcon.2 hse]
        rw [hfq0]
        simp [clean_url_chars_nil]
    · have hmain : ∀ A : List (List Char),
          (∀ l ∈ A, ('.') ∉ l) →
          (∀ l ∈ A, ∀ c ∈ l, hostSafeChar c = true ∧ c.toLower = c) →
          (joinDot A = [] → A = []) →
          joinDot A ≠ ['w', 'w', 'w'] →
          List.map Char.toLower (joinDot (A ++ [d, sfx])) = joinDot (A ++ [d, sfx])
          ∧ clean_url_chars (joinDot (A ++ [d, sfx])) = joinDot (A ++ [d, sfx]) := by
        intro A hAdot hAchars hAsub hAwww
        have hall : ∀ c ∈ joinDot (A ++ [d, sfx]),
            hostSafeChar c = true ∧ c.toLower = c := by
          refine joinDot_chars_good _ _ ⟨by decide, by decide⟩ ?_
          intro l hl c hc
          rcases List.mem_append.mp hl with h | h
          · exact hAchars l h c hc
          · rcases List.mem_cons.mp h with rfl | h'
            · exact hd_chars c hc
            · rcases List.mem_cons.mp h' with rfl | h''
              · exact hsfx_chars c hc
              · simp at h''
        have hmapid : List.map Char.toLower (joinDot (A ++ [d, sfx]))
            = joinDot (A ++ [d, sfx]) := by
          rw [List.map_congr_left fun c hc => (hall c hc).2]
          simp
        refine ⟨hmapid, ?_⟩
        refine clean_url_chars_canonical A d sfx hde hse ?_
          (fun c hc => (hall c hc).1) (fun c hc => (hall c hc).2) hAsub hAwww
        intro l hl
        rcases List.mem_append.mp hl with h | h
        · exact hAdot l h
        · rcases List.mem_cons.mp h with rfl | h'
          · exact hd_dot
          · rcases List.mem_cons.mp h' with rfl | h''
            · exact hsfx_dot
            · simp at h''
      by_cases hw : (⟨joinDot A0, d, sfx⟩ : ExtractResult).subdomain = ['w', 'w', 'w']
      · rw [if_pos hw]
        obtain ⟨hmapid, hfix⟩ := hmain [] (by simp) (by simp) (fun _ => rfl)
          (by simp [joinDot_nil])
        have htop : (⟨joinDot A0, d, sfx⟩ : ExtractResult).top_domain_under_public_suffix
            = joinDot ([] ++ [d, sfx]) := by
          unfold ExtractResult.top_domain_under_public_suffix
          rw [if_pos ⟨hde, hse⟩]
          rfl
        rw [htop, hmapid]
        exact hfix
      · rw [if_neg hw]
        have hw' : joinDot A0 ≠ ['w', 'w', 'w'] := hw
        by_cases h0 : joinDot A0 = []
        · obtain ⟨hmapid, hfix⟩ := hmain [] (by simp) (by simp) (fun _ => rfl)
            (by simp [joinDot_nil])
          have hfq : (⟨joinDot A0, d, sfx⟩ : ExtractResult).fqdn
              = joinDot ([] ++ [d, sfx]) := by
            unfold ExtractResult.fqdn
            rw [if_pos ⟨hde, hse⟩, if_pos h0]
          rw [hfq, hmapid]
          exact hfix
        · have hAjoin : joinDot (splitOnDot (joinDot A0)) = joinDot A0 :=
            joinDot_splitOnDot _
          obtain ⟨hmapid, hfix⟩ := hmain (splitOnDot (joinDot A0))
            (fun l hl => not_dot_mem_splitOnDot _ l hl)
            (by
              intro l hl c hc
              have hcj := mem_of_mem_splitOnDot c _ l hl hc
              rcases mem_joinDot A0 c hcj with rfl | ⟨l', hl', hcl'⟩
              · exact ⟨by decide, by decide⟩
              · exact hA0_chars l' hl' c hcl')
            (fun h => absurd (by rw [hAjoin] at h; exact h) h0)
            (by rw [hAjoin]; exact hw')
          have hfq : (⟨joinDot A0, d, sfx⟩ : ExtractResult).fqdn
              = joinDot (splitOnDot (joinDot A0) ++ [d, sfx]) := by
            unfold ExtractResult.fqdn
            rw [if_pos ⟨hde, hse⟩, if_neg h0, List.singleton_append,
              ← joinDot_flatten [d, sfx] (splitOnDot (joinDot A0)) (splitOnDot_ne_nil _),
              hAjoin]
          rw [hfq, hmapid]
          exact hfix

/-- On lowercase, whitespace-free input, normalizing twice equals
normalizing once. -/
theorem clean_url_chars_idem (s : List Char)
    (hLow : ∀ c ∈ s, c.toLower = c) (hWs : ∀ c ∈ s, isPyWhitespace c = false) :
    clean_url_chars (clean_url_chars s) = clean_url_chars s := by
  set r := rstripSlash (trimChars (s.filter fun c => !(isZWSpace c))) with hr
  have hclean : clean_url_chars s = List.map Char.toLower
      (if (tldextract_extract r).subdomain = ['w', 'w', 'w']
        then (tldextract_extract r).top_domain_under_public_suffix
        else (tldextract_extract r).fqdn) := rfl
  have hrmem : ∀ c ∈ r, c ∈ s ∧ isZWSpace c = false := by
    intro c hc
    have h1 := mem_trimChars (mem_rstripSlash hc)
    have h2 := List.mem_filter.mp h1
    refine ⟨h2.1, ?_⟩
    simpa using h2.2
  have hnet_safe : ∀ c ∈ lenient_netloc r, hostSafeChar c = true := by
    intro c hc
    obtain ⟨hcr, hs1, hq1, hh1, ha1, hc1⟩ := mem_lenient_netloc hc
    obtain ⟨hcs, hzw⟩ := hrmem c hcr
    unfold hostSafeChar
    simp [hs1, hq1, hh1, ha1, hc1, hzw, hWs c hcs]
  have hnet_low : ∀ c ∈ lenient_netloc r, c.toLower = c := fun c hc =>
    hLow c (hrmem c (mem_lenient_netloc hc).1).1
  have hlabel_dot : ∀ l ∈ splitOnDot (lenient_netloc r), ('.') ∉ l :=
    fun l hl => not_dot_mem_splitOnDot _ l hl
  have hlabel_chars : ∀ l ∈ splitOnDot (lenient_netloc r), ∀ c ∈ l,
      hostSafeChar c = true ∧ c.toLower = c := by
    intro l hl c hc
    have hmem := mem_of_mem_splitOnDot c _ l hl hc
    exact ⟨hnet_safe c hmem, hnet_low c hmem⟩
  by_cases hlen : (splitOnDot (lenient_netloc r)).length ≥ 2
  · set d := (splitOnDot (lenient_netloc r)).dropLast.getLastD [] with hd_def
    set sfx := (splitOnDot (lenient_netloc r)).getLastD [] with hsfx_def
    set A0 := (splitOnDot (lenient_netloc r)).dropLast.dropLast with hA0_def
    have hext : tldextract_extract r = ⟨joinDot A0, d, sfx⟩ := by
      unfold tldextract_extract
      dsimp only
      rw [if_pos hlen]
    have hlabels_ne : splitOnDot (lenient_netloc r) ≠ [] := splitOnDot_ne_nil _
    have hdropLast_ne : (splitOnDot (lenient_netloc r)).dropLast ≠ [] := by
      intro hnil
      have := congrArg List.length hnil
      rw [List.length_dropLast] at this
      simp at this
      omega
    have hd_mem : d ∈ splitOnDot (lenient_netloc r) :=
      (List.dropLast_sublist _).subset (getLastD_mem _ hdropLast_ne)
    have hsfx_mem : sfx ∈ splitOnDot (lenient_netloc r) := getLastD_mem _ hlabels_ne
    have hA0_sub : ∀ l ∈ A0, l ∈ splitOnDot (lenient_netloc r) := fun l hl =>
      (List.dropLast_sublist _).subset ((List.dropLast_sublist _).subset hl)
    rw [hclean, hext]
    exact clean_pass_two A0 d sfx (hlabel_dot d hd_mem) (hlabel_dot sfx hsfx_mem)
      (hlabel_chars d hd_mem) (hlabel_chars sfx hsfx_mem)
      (fun l hl => hlabel_dot l (hA0_sub l hl))
      (fun l hl => hlabel_chars l (hA0_sub l hl))
  · have hext : tldextract_extract r = ⟨[], lenient_netloc r, []⟩ := by
      unfold tldextract_extract
      dsimp only
      rw [if_neg hlen]
    rw [hclean, hext]
    rw [if_neg (by simp)]
    have hfq0 : (⟨[], lenient_netloc r, []⟩ : ExtractResult).fqdn = [] := by
      unfold ExtractResult.fqdn
      rw [if_neg fun hcon => hcon.2 rfl]
    rw [hfq0]
    simp [clean_url_chars_nil]

end Scraper

namespace Scraper

/-- C8 counterexample: `clean_url` is not idempotent.  On
`"WWW.example.com"` the first pass keeps the mixed-case `WWW` subdomain
(the `ext.subdomain == "www"` check is case-sensitive and runs before
`.lower()`), producing `"www.example.com"`; the second pass then strips
the now-lowercase `www`, producing `"example.com"`. -/
theorem clean_url_not_idempotent :
    clean_url "WWW.example.com" = "www.example.com"
    ∧ clean_url (clean_url "WWW.example.com") = "example.com"
    ∧ clean_url (clean_url "WWW.example.com") ≠ clean_url "WWW.example.com" :=
  ⟨by decide, by decide, by decide⟩

/-- C8 amended: `clean_url` is idempotent on every input that is already
free of uppercase letters (characters moved by `Char.toLower`) and of
Python-whitespace characters (`str.isspace()`): the mixed-case `www`
subdomain of the counterexample and whitespace exposed by www-stripping
(e.g. `"www.\x0Bex.com"`, where a second pass strips the vertical tab)
are both excluded, and `clean_url (clean_url x) = clean_url x` holds for
all remaining `x`. -/
theorem clean_url_idempotent_on_lowercase (x : String)
    (hLow : ∀ c ∈ x.data, c.toLower = c)
    (hWs : ∀ c ∈ x.data, isPyWhitespace c = false) :
    clean_url (clean_url x) = clean_url x := by
  have h := clean_url_chars_idem x.data hLow hWs
  have hdef : clean_url x = ⟨clean_url_chars x.data⟩ := rfl
  have hmkl : ∀ l : List Char, clean_url (⟨l⟩ : String) = ⟨clean_url_chars l⟩ :=
    fun _ => rfl
  calc clean_url (clean_url x)
      = clean_url (⟨clean_url_chars x.data⟩ : String) := by rw [hdef]
    _ = (⟨clean_url_chars (clean_url_chars x.data)⟩ : String) := hmkl _
    _ = (⟨clean_url_chars x.data⟩ : String) := by rw [h]
    _ = clean_url x := hdef.symm

/-- Witness for the amended C8 at a lowercase URL with scheme, `www`
subdomain, trailing slash and path. -/
theorem clean_url_idempotent_on_lowercase_witness :
    (∀ c ∈ ("https://www.example.com/path/" : String).data, c.toLower = c)
    ∧ (∀ c ∈ ("https://www.example.com/path/" : String).data, isPyWhitespace c = false)
    ∧ clean_url (clean_url "https://www.example.com/path/")
        = clean_url "https://www.example.com/path/" :=
  ⟨by decide, by decide,
    clean_url_idempotent_on_lowercase "https://www.example.com/path/" (by decide) (by decide)⟩

end Scraper
